import Mathlib

/-!
Shallow embedding of the `pack-bins` repository (Rust): the bin-packing
backtracking engine from `src/lib.rs` (`Bin`, `State`, `Fitter`) and the
minimization driver loop from `src/main.rs` (`SolutionState`,
`solve_single_input`).

Conventions of the embedding:
* The weight type `T` is instantiated at `Nat` (the binary uses `u32`; all
  subtractions in the source are guarded, which the invariants below make
  precise).
* A Rust `Vec` used as a stack (pushes and pops at the *end*) is represented
  by a `List` whose *head* is the end of the `Vec`.  This applies to
  `Fitter.items` (the pending items, kept sorted ascending in the `Vec`, so
  the list head is the largest pending item) and to `Fitter.state_stack`
  (the list head is the top frame).  `Bin.items` keeps the `Vec` order
  (head = first pushed item) because the source compares bins
  lexicographically in that order.
* Rust panics (`unwrap` on `None`, integer-underflow/out-of-bounds indexing)
  are modelled by `Option`: a function returns `none` exactly on the inputs
  where the Rust code would panic.
-/

namespace PackBins

/-- Lexicographic strict order on `Vec<u32>`, as produced by Rust's derived
`Ord` on slices: compare elementwise, a strict prefix is smaller.
(`impl Ord for Bin` in `src/lib.rs` compares `self.items.cmp(&other.items)`.) -/
def listLt : List Nat → List Nat → Bool
  | _, [] => false
  | [], _ :: _ => true
  | x :: xs, y :: ys => if x < y then true else if y < x then false else listLt xs ys

/-- `Bin<T>` from `src/lib.rs`: residual capacity plus the items pushed so far
(in push order). -/
structure Bin where
  capacity : Nat
  items : List Nat
deriving Repr, DecidableEq

instance : Inhabited Bin := ⟨⟨0, []⟩⟩

/-- `Bin::new` -/
def Bin.new (capacity : Nat) : Bin := ⟨capacity, []⟩

/-- `Bin::fits`: `&self.capacity >= item` -/
def Bin.fits (b : Bin) (item : Nat) : Bool := decide (item ≤ b.capacity)

/-- `Bin::push`: `self.capacity -= &item; self.items.push(item)`.
The source only calls this after `fits` has been checked, so the `Nat`
subtraction is exact on every call site. -/
def Bin.push (b : Bin) (item : Nat) : Bin :=
  { capacity := b.capacity - item, items := b.items ++ [item] }

/-- `Bin::pop`: removes the most recently pushed item and restores capacity;
returns the updated bin together with the popped item, `none` if empty (in
which case the Rust code leaves the bin unchanged). -/
def Bin.pop (b : Bin) : Option (Bin × Nat) :=
  match b.items.getLast? with
  | none => none
  | some it => some ({ capacity := b.capacity + it, items := b.items.dropLast }, it)

/-- `Bin::is_empty` -/
def Bin.is_empty (b : Bin) : Bool := b.items.isEmpty

/-- The `Action` enum of a search frame (`Try` / `Backtrack`). -/
inductive Action
  | Try
  | Backtrack
deriving Repr, DecidableEq

/-- `State<T>`: one search frame — the last residual capacity a placement was
tried at, the next bin index to scan, and the frame mode. -/
structure State where
  last_bin_capacity : Option Nat
  next_bin_idx : Nat
  action : Action
deriving Repr, DecidableEq

/-- `Default for State`: `{ last_bin_capacity: None, next_bin_idx: 0, action: Try }` -/
def State.default : State := ⟨none, 0, Action.Try⟩

instance : Inhabited State := ⟨State.default⟩

/-- `Fitter<T>`: pending items, bins, and the explicit frame stack.
`items` and `state_stack` are the Rust `Vec`s viewed from their popping end
(list head = `Vec` end). -/
structure Fitter where
  items : List Nat
  bins : List Bin
  state_stack : List State
deriving Repr, DecidableEq

/-- `Fitter::new`: sort the items ascending (so the head of our reversed view
is the largest pending item), wrap each capacity in a fresh bin, and start
with a single default frame. -/
def Fitter.new (items : List Nat) (bin_capacities : List Nat) : Fitter :=
  { items := (List.insertionSort (· ≤ ·) items).reverse,
    bins := bin_capacities.map Bin.new,
    state_stack := [State.default] }

/-- `Fitter::is_solved`: the pending item list is empty. -/
def Fitter.is_solved (f : Fitter) : Bool := f.items.isEmpty

/-- The scan loop of `Fitter::step_inner` (`src/lib.rs` lines 126–160): scan
bins from `cur.next_bin_idx` upward, skipping bins that do not fit, bins whose
residual capacity equals `cur.last_bin_capacity`, and placements that would
put the pushed bin lexicographically above its left neighbour; place the item
at the first acceptable bin (pushing the updated frame and a fresh default
frame), or return the item to pending once the indices are exhausted.

Each iteration increments `next_bin_idx` and the loop exits as soon as the
index reaches `bins.length`, so `bins.length + 1` units of `fuel` always
suffice; `none` is only the out-of-fuel marker (unreachable from
`Fitter.stepInner`, which supplies that much fuel). -/
def scanLoop (fuel : Nat) (bins : List Bin) (rest : List State) (pending : List Nat)
    (cur : State) (item : Nat) : Option Fitter :=
  match fuel with
  | 0 => none
  | fuel + 1 =>
    let bin_idx := cur.next_bin_idx
    let cur1 : State := { cur with next_bin_idx := bin_idx + 1 }
    if h : bin_idx < bins.length then
      let b := bins.get ⟨bin_idx, h⟩
      if ¬ b.fits item then
        scanLoop fuel bins rest pending cur1 item
      else if cur1.last_bin_capacity = some b.capacity then
        scanLoop fuel bins rest pending cur1 item
      else
        let capacity := b.capacity
        let pushed := b.push item
        let bins1 := bins.set bin_idx pushed
        if 1 ≤ bin_idx ∧ listLt (bins1.getD (bin_idx - 1) default).items pushed.items then
          match pushed.pop with
          | none => none
          | some (b2, item2) => scanLoop fuel (bins1.set bin_idx b2) rest pending cur1 item2
        else
          some { items := pending,
                 bins := bins1,
                 state_stack :=
                   State.default ::
                     { cur1 with last_bin_capacity := some capacity, action := Action.Backtrack } ::
                       rest }
    else
      some { items := item :: pending, bins := bins, state_stack := rest }

/-- The shared tail of `Fitter::step_inner` after the item has been acquired
(`src/lib.rs` lines 117–160): peek at the frame below (if any) to re-anchor
`next_bin_idx` for equal-weight items, then run the scan loop.  `none` models
the panics of lines 118–119 (index underflow / out of bounds / `unwrap` of an
empty bin). -/
def stepCont (bins : List Bin) (rest : List State) (pending : List Nat)
    (cur : State) (item : Nat) : Option (Fitter × Bool) :=
  match rest with
  | [] => (scanLoop (bins.length + 1) bins rest pending cur item).map (fun f => (f, true))
  | prev :: _ =>
    if prev.next_bin_idx = 0 then none
    else
      let current_bin_idx := prev.next_bin_idx - 1
      if h : current_bin_idx < bins.length then
        match (bins.get ⟨current_bin_idx, h⟩).items.getLast? with
        | none => none
        | some prev_item =>
          let cur1 :=
            if prev_item ≤ item then
              { cur with next_bin_idx := max cur.next_bin_idx current_bin_idx }
            else cur
          (scanLoop (bins.length + 1) bins rest pending cur1 item).map (fun f => (f, true))
      else none

/-- `Fitter::step_inner` / `Fitter::step`.  Returns `none` where the Rust code
panics; otherwise `some (f', r)` where `f'` is the mutated engine and `r` is
the value `step()` returns (`step_inner().is_some()`).  Note that in `Try`
mode with no pending items the source has already popped (and hence dropped)
the top frame before the early `?` return. -/
def Fitter.stepInner (f : Fitter) : Option (Fitter × Bool) :=
  match f.state_stack with
  | [] => some (f, false)
  | cur :: rest =>
    match cur.action with
    | Action.Try =>
      match f.items with
      | [] => some ({ f with state_stack := rest }, false)
      | it :: pend => stepCont f.bins rest pend cur it
    | Action.Backtrack =>
      if cur.next_bin_idx = 0 then none
      else
        let i := cur.next_bin_idx - 1
        if h : i < f.bins.length then
          match (f.bins.get ⟨i, h⟩).pop with
          | none => none
          | some (b1, it) => stepCont (f.bins.set i b1) rest f.items cur it
        else none

/-- Iterate `stepInner` until `step()` returns `false`, which is how
`solve_until(|| true)` drives the engine (`src/lib.rs` lines 179–214 with an
always-true predicate); the result is the engine state after the final
(`false`-returning) call.  `none` on a panic or when out of fuel. -/
def runEngine : Nat → Fitter → Option Fitter
  | 0, _ => none
  | n + 1, f =>
    match f.stepInner with
    | none => none
    | some (f', false) => some f'
    | some (f', true) => runEngine n f'

/-- The loop of `Fitter::solve_until` (`src/lib.rs` lines 177–214), with the
caller's `FnMut` predicate modelled as a function of the number of predicate
calls made so far.  The accumulator holds the last predicate value (`solving`)
and the index of the next predicate call; the result is the final engine
state, the returned `solving` flag, and the total number of predicate calls. -/
def solveUntilGo (pred : Nat → Bool) : Nat → Nat → Bool → Fitter → Option (Fitter × Bool × Nat)
  | _, k, false, f => some (f, false, k)
  | 0, _, true, _ => none
  | fuel + 1, k, true, f =>
    match f.stepInner with
    | none => none
    | some (f', false) => some (f', true, k)
    | some (f', true) => solveUntilGo pred fuel (k + 1) (pred k) f'

/-- `Fitter::solve_until`: evaluate the predicate once, then loop. -/
def Fitter.solve_until (f : Fitter) (pred : Nat → Bool) (fuel : Nat) :
    Option (Fitter × Bool × Nat) :=
  solveUntilGo pred fuel 1 (pred 0) f

/-- `SolutionState<S>` from `src/main.rs`, with `S` fixed to the bin vector a
solved engine yields (`Vec<Bin<u32>>`). -/
inductive SolutionState
  | Unknown
  | Unsolvable
  | Solved (bins : List Bin)
deriving Repr, DecidableEq

/-- `SolutionState::insert`: overwrite only an `Unknown` value. -/
def SolutionState.insert : SolutionState → SolutionState → SolutionState
  | SolutionState.Unknown, status => status
  | s, _ => s

/-- The `'optimize` loop of `solve_single_input` (`src/main.rs` lines
129–168).  `tmo k` tells whether the engine run of iteration `k` was cut short
by the deadline (`time_out` in the source); when it was not, the engine state
is the deterministic run-to-completion state, computed by `runEngine` with
`efuel` fuel.  `fuel` bounds the number of iterations; `none` only on fuel
exhaustion. -/
def driverLoop (weights : List Nat) (cap : Nat) (minimize : Bool) (tmo : Nat → Bool)
    (efuel : Nat) : Nat → Nat → Nat → SolutionState → Option SolutionState
  | 0, _, _, _ => none
  | fuel + 1, k, max_bins, sol =>
    if cap * max_bins < weights.sum then
      some (sol.insert SolutionState.Unsolvable)
    else if tmo k then
      some sol
    else
      match runEngine efuel (Fitter.new weights (List.replicate max_bins cap)) with
      | none => none
      | some F =>
        if F.is_solved then
          let bins := F.bins.filter (fun b => ¬ b.is_empty)
          let max_bins1 := bins.length - 1
          let sol1 := SolutionState.Solved bins
          if 0 < max_bins1 ∧ minimize = true then
            driverLoop weights cap minimize tmo efuel fuel (k + 1) max_bins1 sol1
          else
            some (sol1.insert SolutionState.Unsolvable)
        else
          some (sol.insert SolutionState.Unsolvable)

/-- `solve_single_input` (minus I/O): start at `max_bins = weights.len()` with
an `Unknown` solution. -/
def solve_single_input (weights : List Nat) (cap : Nat) (minimize : Bool)
    (tmo : Nat → Bool) (efuel fuel : Nat) : Option SolutionState :=
  driverLoop weights cap minimize tmo efuel fuel 0 weights.length SolutionState.Unknown

/-- Iterate `stepInner` a fixed number of times (ignoring the returned flag);
`none` once a step panics.  Used to compare engine variants state by state. -/
def stepsEngine : Nat → Fitter → Option Fitter
  | 0, f => some f
  | n + 1, f =>
    match f.stepInner with
    | none => none
    | some (f', _) => stepsEngine n f'

/-- A valid assignment for an instance: one item list per bin, jointly a
permutation of the input items, each list summing to at most its bin's
original capacity.  This is the notion of solution that the completeness
property of the spec quantifies over. -/
def validAssignment (items caps : List Nat) (asg : List (List Nat)) : Bool :=
  asg.length == caps.length &&
    asg.flatten.isPerm items &&
    (asg.zip caps).all (fun p => p.1.sum ≤ p.2)

/-- Engine states reachable from `f` by successful (non-panicking) calls to
`step` — the closure the reachable-state invariants quantify over. -/
inductive Reachable : Fitter → Fitter → Prop
  | refl (f : Fitter) : Reachable f f
  | tail (f g h : Fitter) (r : Bool) :
      Reachable f g → g.stepInner = some (h, r) → Reachable f h

/-! ### Spec-modelled variant of the search frame

The spec (§3, *Search frame*) describes each frame as
`{ next_bin_index, tried_capacities: set of Weight, mode }` and (§4.2) makes
`step` "skip a bin whose residual capacity equals one already tried at this
frame".  The source keeps only `last_bin_capacity: Option<T>` — the residual
of the single most recently tried bin.  The definitions below follow the
spec's words (a frame accumulates *all* tried capacities and skips a member
of that set) so the two behaviours can be compared; everything else is
verbatim the same algorithm as above. -/

/-- Modelled from the spec: a search frame holding the set of residual
capacities already tried at this decision point (`tried_capacities` in §3),
in place of the source's single `last_bin_capacity`. -/
structure StateS where
  tried : List Nat
  next_bin_idx : Nat
  action : Action
deriving Repr, DecidableEq

/-- Modelled from the spec: fresh frame with an empty tried set. -/
def StateS.defaultS : StateS := ⟨[], 0, Action.Try⟩

instance : Inhabited StateS := ⟨StateS.defaultS⟩

/-- Modelled from the spec: the engine using tried-capacity-set frames. -/
structure FitterS where
  items : List Nat
  bins : List Bin
  state_stack : List StateS
deriving Repr, DecidableEq

/-- Modelled from the spec: construction, identical to `Fitter.new`. -/
def FitterS.new (items : List Nat) (bin_capacities : List Nat) : FitterS :=
  { items := (List.insertionSort (· ≤ ·) items).reverse,
    bins := bin_capacities.map Bin.new,
    state_stack := [StateS.defaultS] }

/-- Modelled from the spec: the scan loop with the set-membership skip rule
("a bin is attempted at most once per distinct residual-capacity value seen
so far at that frame", §3 invariant 4); otherwise identical to `scanLoop`. -/
def scanLoopS (fuel : Nat) (bins : List Bin) (rest : List StateS) (pending : List Nat)
    (cur : StateS) (item : Nat) : Option FitterS :=
  match fuel with
  | 0 => none
  | fuel + 1 =>
    let bin_idx := cur.next_bin_idx
    let cur1 : StateS := { cur with next_bin_idx := bin_idx + 1 }
    if h : bin_idx < bins.length then
      let b := bins.get ⟨bin_idx, h⟩
      if ¬ b.fits item then
        scanLoopS fuel bins rest pending cur1 item
      else if b.capacity ∈ cur1.tried then
        scanLoopS fuel bins rest pending cur1 item
      else
        let capacity := b.capacity
        let pushed := b.push item
        let bins1 := bins.set bin_idx pushed
        if 1 ≤ bin_idx ∧ listLt (bins1.getD (bin_idx - 1) default).items pushed.items then
          match pushed.pop with
          | none => none
          | some (b2, item2) => scanLoopS fuel (bins1.set bin_idx b2) rest pending cur1 item2
        else
          some { items := pending,
                 bins := bins1,
                 state_stack :=
                   StateS.defaultS ::
                     { cur1 with tried := cur1.tried ++ [capacity], action := Action.Backtrack } ::
                       rest }
    else
      some { items := item :: pending, bins := bins, state_stack := rest }

/-- Modelled from the spec: the shared tail of a step (identical to
`stepCont` except for the frame type). -/
def stepContS (bins : List Bin) (rest : List StateS) (pending : List Nat)
    (cur : StateS) (item : Nat) : Option (FitterS × Bool) :=
  match rest with
  | [] => (scanLoopS (bins.length + 1) bins rest pending cur item).map (fun f => (f, true))
  | prev :: _ =>
    if prev.next_bin_idx = 0 then none
    else
      let current_bin_idx := prev.next_bin_idx - 1
      if h : current_bin_idx < bins.length then
        match (bins.get ⟨current_bin_idx, h⟩).items.getLast? with
        | none => none
        | some prev_item =>
          let cur1 :=
            if prev_item ≤ item then
              { cur with next_bin_idx := max cur.next_bin_idx current_bin_idx }
            else cur
          (scanLoopS (bins.length + 1) bins rest pending cur1 item).map (fun f => (f, true))
      else none

/-- Modelled from the spec: one step of the tried-set engine. -/
def FitterS.stepInner (f : FitterS) : Option (FitterS × Bool) :=
  match f.state_stack with
  | [] => some (f, false)
  | cur :: rest =>
    match cur.action with
    | Action.Try =>
      match f.items with
      | [] => some ({ f with state_stack := rest }, false)
      | it :: pend => stepContS f.bins rest pend cur it
    | Action.Backtrack =>
      if cur.next_bin_idx = 0 then none
      else
        let i := cur.next_bin_idx - 1
        if h : i < f.bins.length then
          match (f.bins.get ⟨i, h⟩).pop with
          | none => none
          | some (b1, it) => stepContS (f.bins.set i b1) rest f.items cur it
        else none

/-- Project a tried-set frame onto a source frame: the source's
`last_bin_capacity` is the most recently tried capacity. -/
def StateS.proj (s : StateS) : State := ⟨s.tried.getLast?, s.next_bin_idx, s.action⟩

/-- Project a tried-set engine state onto a source engine state. -/
def FitterS.proj (f : FitterS) : Fitter := ⟨f.items, f.bins, f.state_stack.map StateS.proj⟩

/-- Modelled from the spec: iterate the tried-set engine. -/
def stepsEngineS : Nat → FitterS → Option FitterS
  | 0, f => some f
  | n + 1, f =>
    match f.stepInner with
    | none => none
    | some (f', _) => stepsEngineS n f'

/-! ### Invariants and termination measure -/

/-- The multiset of weights held by an engine state: all items in bins plus
all pending items. -/
def totalMultiset (f : Fitter) : Multiset ℕ :=
  ((f.bins.map Bin.items).flatten : Multiset ℕ) + (f.items : Multiset ℕ)

/-- Per-bin capacity bookkeeping relative to the original capacities: the
stored residual plus the sum of assigned items equals the original capacity
(so in particular the `u32` subtraction in `Bin::push` never underflows). -/
def BinsInv (caps : List Nat) (bins : List Bin) : Prop :=
  bins.length = caps.length ∧
    ∀ i (h : i < bins.length) (h' : i < caps.length),
      (bins.get ⟨i, h⟩).capacity + (bins.get ⟨i, h⟩).items.sum = caps.get ⟨i, h'⟩

/-- The stored `Backtrack` frames can be unwound bottom-up: each points one
past a bin index inside range whose bin still holds the item that frame
placed, and popping it leaves a bin vector on which the remaining frames can
be unwound in turn. -/
def UnwindOk : List State → List Bin → Prop
  | [], _ => True
  | fr :: rest, bins =>
    fr.action = Action.Backtrack ∧ 1 ≤ fr.next_bin_idx ∧ fr.next_bin_idx ≤ bins.length ∧
      ∃ (h : fr.next_bin_idx - 1 < bins.length) (b : Bin) (it : Nat),
        (bins.get ⟨fr.next_bin_idx - 1, h⟩).pop = some (b, it) ∧
          UnwindOk rest (bins.set (fr.next_bin_idx - 1) b)

/-- Shape of the frame stack: at most the top frame is a `Try` frame, and a
stored `Try` frame is always the fresh default one; all frames below can be
unwound. -/
def StackOk (f : Fitter) : Prop :=
  match f.state_stack with
  | [] => True
  | cur :: rest =>
    match cur.action with
    | Action.Try => cur = State.default ∧ UnwindOk rest f.bins
    | Action.Backtrack => UnwindOk (cur :: rest) f.bins

/-- The full reachable-state invariant relative to the constructor arguments. -/
def Inv (items caps : List Nat) (f : Fitter) : Prop :=
  totalMultiset f = (items : Multiset ℕ) ∧ BinsInv caps f.bins ∧ StackOk f

/-- Digit of one frame in the termination measure: how many bin indices its
scan could still advance through (`B` is the number of bins). -/
def frameDigit (B : Nat) (s : State) : Nat := B + 1 - s.next_bin_idx

/-- Weighted digit sum, most significant digit first, with `e` the exponent
of the leading position. -/
def digitValue (base : Nat) : List Nat → Nat → Nat
  | [], _ => 0
  | d :: ds, e => d * base ^ e + digitValue base ds (e - 1)

/-- Termination measure of an engine state: the frame digits, bottom of the
stack first, read as a number in base `B + 2`.  Every successful step that
returns `true` strictly decreases it (frames only ever advance, and pushing
one fresh frame costs less than one unit of the parent's digit). -/
def engineMeasure (B D : Nat) (f : Fitter) : Nat :=
  digitValue (B + 2) (f.state_stack.reverse.map (frameDigit B)) D

/-- Repeated interrupted driving of the engine: each round makes a single
`solve_until` call whose predicate is true once and then false, so the call
performs exactly one step and reports interruption, and the next round
resumes; rounds continue until a call reports completion (`solving = true`). -/
def resumeLoop : Nat → Fitter → Option Fitter
  | 0, _ => none
  | n + 1, f =>
    match f.solve_until (fun k => k == 0) 2 with
    | none => none
    | some (F, true, _) => some F
    | some (F, false, _) => resumeLoop n F

/-! ## Basic lemmas about `Bin` -/

theorem Bin.pop_push (b : Bin) (item : Nat) (h : b.fits item = true) :
    (b.push item).pop = some (b, item) := by
  have hle : item ≤ b.capacity := of_decide_eq_true h
  simp only [Bin.pop, Bin.push, List.getLast?_concat, List.dropLast_concat]
  have : b.capacity - item + item = b.capacity := by omega
  simp [this]

theorem Bin.pop_eq_some {b b' : Bin} {it : Nat} (h : b.pop = some (b', it)) :
    b.items = b'.items ++ [it] ∧ b'.capacity = b.capacity + it := by
  unfold Bin.pop at h
  cases hl : b.items.getLast? with
  | none => simp [hl] at h
  | some a =>
    simp only [hl] at h
    obtain ⟨l, hdecomp⟩ := List.getLast?_eq_some_iff.mp hl
    cases h
    constructor
    · simp [hdecomp]
    · rfl

theorem Bin.pop_empty {b : Bin} (h : b.items = []) : b.pop = none := by
  simp [Bin.pop, h]

/-- C8: for every bin `b` and item `x` with `b.fits(x)`, `push(x)` followed by
`pop()` returns `x` and restores the bin exactly (capacity and item list, LIFO);
and popping an empty bin returns `None` (the bin is untouched, since the
embedding of `pop` only produces a changed bin through a `some` result). -/
theorem bin_push_pop_roundtrip (b : Bin) (item : Nat) :
    (b.fits item = true → (b.push item).pop = some (b, item)) ∧
      (b.items = [] → b.pop = none) :=
  ⟨Bin.pop_push b item, Bin.pop_empty⟩

theorem bin_push_pop_roundtrip_witness :
    (Bin.fits ⟨7, [4]⟩ 3 = true ∧ (Bin.push ⟨7, [4]⟩ 3).pop = some (⟨7, [4]⟩, 3)) ∧
      Bin.pop ⟨9, []⟩ = none :=
  ⟨⟨by decide, (bin_push_pop_roundtrip ⟨7, [4]⟩ 3).1 (by decide)⟩,
    (bin_push_pop_roundtrip ⟨9, []⟩ 0).2 rfl⟩

theorem list_set_get_self {α : Type _} (l : List α) (i : Nat) (h : i < l.length) :
    l.set i (l.get ⟨i, h⟩) = l := by
  induction l generalizing i with
  | nil => simp at h
  | cons a t ih =>
    cases i with
    | zero => simp
    | succ n => simpa using ih n (by simpa using h)

/-! ## The shape of one scan-loop run

Every successful run of the scan loop either returns the item to pending and
drops the current frame, or places the item at a bin index `j` at or beyond
the scan start, with `j` in range, fitting, and with a residual capacity
different from the frame's remembered `last_bin_capacity`; the resulting
state is then fully determined by `j`. -/

theorem scanLoop_shape (fuel : Nat) (bins : List Bin) (rest : List State)
    (pending : List Nat) (cur : State) (item : Nat) (f' : Fitter)
    (hscan : scanLoop fuel bins rest pending cur item = some f') :
    f' = ⟨item :: pending, bins, rest⟩ ∨
      ∃ j, ∃ hj : j < bins.length,
        cur.next_bin_idx ≤ j ∧
          (bins.get ⟨j, hj⟩).fits item = true ∧
          cur.last_bin_capacity ≠ some (bins.get ⟨j, hj⟩).capacity ∧
          f' = ⟨pending, bins.set j ((bins.get ⟨j, hj⟩).push item),
                State.default ::
                  ⟨some (bins.get ⟨j, hj⟩).capacity, j + 1, Action.Backtrack⟩ :: rest⟩ := by
  induction fuel generalizing bins cur item with
  | zero => simp [scanLoop] at hscan
  | succ fuel ih =>
    rw [scanLoop] at hscan
    by_cases h : cur.next_bin_idx < bins.length
    · simp only [dif_pos h] at hscan
      by_cases hfits : (bins.get ⟨cur.next_bin_idx, h⟩).fits item
      · simp only [hfits, not_true_eq_false, if_false, ite_false] at hscan
        by_cases hlast :
            cur.last_bin_capacity = some (bins.get ⟨cur.next_bin_idx, h⟩).capacity
        · simp only [if_pos hlast] at hscan
          rcases ih bins _ item hscan with h1 | ⟨j, hj, hge, hf, hl, he⟩
          · exact Or.inl h1
          · exact Or.inr ⟨j, hj, by simp at hge; omega, hf, hl, he⟩
        · simp only [if_neg hlast] at hscan
          by_cases hord : 1 ≤ cur.next_bin_idx ∧
              listLt (((bins.set cur.next_bin_idx
                    ((bins.get ⟨cur.next_bin_idx, h⟩).push item)).getD
                  (cur.next_bin_idx - 1) default).items)
                (((bins.get ⟨cur.next_bin_idx, h⟩).push item).items)
          · rw [if_pos hord, Bin.pop_push _ _ hfits] at hscan
            dsimp only [] at hscan
            rw [List.set_set, list_set_get_self] at hscan
            rcases ih bins _ item hscan with h1 | ⟨j, hj, hge, hf, hl, he⟩
            · exact Or.inl h1
            · exact Or.inr ⟨j, hj, by simp at hge; omega, hf, hl, he⟩
          · rw [if_neg hord] at hscan
            refine Or.inr ⟨cur.next_bin_idx, h, le_refl _, hfits, hlast, ?_⟩
            exact (Option.some_injective _ hscan).symm
      · simp only [hfits, not_false_eq_true, if_true, ite_true] at hscan
        rcases ih bins _ item hscan with h1 | ⟨j, hj, hge, hf, hl, he⟩
        · exact Or.inl h1
        · exact Or.inr ⟨j, hj, by simp at hge; omega, hf, hl, he⟩
    · simp only [dif_neg h] at hscan
      exact Or.inl (Option.some_injective _ hscan).symm

/-- Exchanging one bin of a bin vector exchanges exactly its items in the
joint item multiset. -/
theorem flatten_set_exchange (l : List Bin) (j : Nat) (h : j < l.length) (c : Bin) :
    (((l.set j c).map Bin.items).flatten : Multiset ℕ) + ((l.get ⟨j, h⟩).items : Multiset ℕ)
      = ((l.map Bin.items).flatten : Multiset ℕ) + (c.items : Multiset ℕ) := by
  induction l generalizing j with
  | nil => simp at h
  | cons a t ih =>
    cases j with
    | zero =>
      simp only [List.set, List.map_cons, List.flatten_cons, List.get, Multiset.coe_add]
      rw [Multiset.coe_eq_coe]
      refine List.perm_iff_count.mpr fun x => ?_
      simp only [List.count_append]
      omega
    | succ n =>
      have hn : n < t.length := by simpa using h
      have hih := ih n hn
      simp only [List.set, List.map_cons, List.flatten_cons, List.get, Multiset.coe_add] at hih ⊢
      rw [Multiset.coe_eq_coe] at hih ⊢
      have hcount := fun x => (List.perm_iff_count.mp hih) x
      refine List.perm_iff_count.mpr fun x => ?_
      have hx := hcount x
      simp only [List.count_append] at hx ⊢
      omega

/-- Every successful `stepCont` returns `true` and is a scan-loop run from a
start state that keeps the frame's `last_bin_capacity` and does not move the
scan start backwards. -/
theorem stepCont_shape (bins : List Bin) (rest : List State) (pending : List Nat)
    (cur : State) (item : Nat) (p : Fitter × Bool)
    (h : stepCont bins rest pending cur item = some p) :
    p.2 = true ∧ ∃ cur1 : State,
      cur1.last_bin_capacity = cur.last_bin_capacity ∧
        cur1.action = cur.action ∧
        cur.next_bin_idx ≤ cur1.next_bin_idx ∧
        scanLoop (bins.length + 1) bins rest pending cur1 item = some p.1 := by
  unfold stepCont at h
  cases rest with
  | nil =>
    obtain ⟨f1, hs, hfb⟩ := Option.map_eq_some'.mp h
    refine ⟨by rw [← hfb], cur, rfl, rfl, le_refl _, ?_⟩
    rw [hs, ← hfb]
  | cons prev tl =>
    by_cases h0 : prev.next_bin_idx = 0
    · simp [h0] at h
    · simp only [if_neg h0] at h
      by_cases hlt : prev.next_bin_idx - 1 < bins.length
      · simp only [dif_pos hlt] at h
        cases hgl : (bins.get ⟨prev.next_bin_idx - 1, hlt⟩).items.getLast? with
        | none => rw [hgl] at h; simp at h
        | some prev_item =>
          rw [hgl] at h
          dsimp only [] at h
          obtain ⟨f1, hs, hfb⟩ := Option.map_eq_some'.mp h
          by_cases hpi : prev_item ≤ item
          · rw [if_pos hpi] at hs
            refine ⟨by rw [← hfb],
              { cur with next_bin_idx := max cur.next_bin_idx (prev.next_bin_idx - 1) },
              rfl, rfl, ?_, ?_⟩
            · exact Nat.le_max_left _ _
            · rw [hs, ← hfb]
          · rw [if_neg hpi] at hs
            refine ⟨by rw [← hfb], cur, rfl, rfl, le_refl _, ?_⟩
            rw [hs, ← hfb]
      · simp [dif_neg hlt] at h

/-- With `bins.length + 1` units of fuel the scan loop cannot run out (it
advances the index every iteration and stops at `bins.length`), and the only
other `none` source, the pop after an ordering-rejected push, never fires. -/
theorem scanLoop_isSome (fuel : Nat) (bins : List Bin) (rest : List State)
    (pending : List Nat) (cur : State) (item : Nat)
    (hfuel : bins.length + 1 ≤ fuel + cur.next_bin_idx) (h1 : 1 ≤ fuel) :
    (scanLoop fuel bins rest pending cur item).isSome := by
  induction fuel generalizing bins cur item with
  | zero => omega
  | succ fuel ih =>
    rw [scanLoop]
    by_cases h : cur.next_bin_idx < bins.length
    · have hfuel1 : 1 ≤ fuel := by omega
      simp only [dif_pos h]
      by_cases hfits : (bins.get ⟨cur.next_bin_idx, h⟩).fits item
      · simp only [hfits, not_true_eq_false, if_false, ite_false]
        by_cases hlast :
            cur.last_bin_capacity = some (bins.get ⟨cur.next_bin_idx, h⟩).capacity
        · rw [if_pos hlast]
          exact ih bins _ item (by simp; omega) hfuel1
        · rw [if_neg hlast]
          by_cases hord : 1 ≤ cur.next_bin_idx ∧
              listLt (((bins.set cur.next_bin_idx
                    ((bins.get ⟨cur.next_bin_idx, h⟩).push item)).getD
                  (cur.next_bin_idx - 1) default).items)
                (((bins.get ⟨cur.next_bin_idx, h⟩).push item).items)
          · rw [if_pos hord, Bin.pop_push _ _ hfits]
            dsimp only []
            rw [List.set_set, list_set_get_self]
            exact ih bins _ item (by simp; omega) hfuel1
          · rw [if_neg hord]
            simp
      · simp only [hfits, not_false_eq_true, if_true, ite_true]
        exact ih bins _ item (by simp; omega) hfuel1
    · simp [dif_neg h]

/-- Full case analysis of one successful `stepInner` call: either the frame
stack was empty (no-op, `false`), or the top frame was a `Try` frame with no
pending item (frame dropped, `false`), or the step acquired an item (from
pending in `Try` mode, from the frame's bin in `Backtrack` mode) and ran the
scan loop, returning `true`. -/
theorem stepInner_success (f : Fitter) (f' : Fitter) (r : Bool)
    (h : f.stepInner = some (f', r)) :
    (f.state_stack = [] ∧ f' = f ∧ r = false) ∨
      (∃ cur rest, f.state_stack = cur :: rest ∧ cur.action = Action.Try ∧ f.items = [] ∧
        f' = { f with state_stack := rest } ∧ r = false) ∨
      (∃ cur rest bins0 pending0 item cur1,
        f.state_stack = cur :: rest ∧ r = true ∧
        cur1.last_bin_capacity = cur.last_bin_capacity ∧
        cur1.action = cur.action ∧
        cur.next_bin_idx ≤ cur1.next_bin_idx ∧
        scanLoop (bins0.length + 1) bins0 rest pending0 cur1 item = some f' ∧
        bins0.length = f.bins.length ∧
        ((cur.action = Action.Try ∧ f.items = item :: pending0 ∧ bins0 = f.bins) ∨
          (cur.action = Action.Backtrack ∧ pending0 = f.items ∧
            ∃ h1 : cur.next_bin_idx - 1 < f.bins.length, ∃ b1 : Bin,
              (f.bins.get ⟨cur.next_bin_idx - 1, h1⟩).pop = some (b1, item) ∧
              1 ≤ cur.next_bin_idx ∧
              bins0 = f.bins.set (cur.next_bin_idx - 1) b1))) := by
  unfold Fitter.stepInner at h
  cases hst : f.state_stack with
  | nil =>
    rw [hst] at h
    simp only [] at h
    refine Or.inl ⟨rfl, ?_, ?_⟩
    · cases h; rfl
    · cases h; rfl
  | cons cur rest =>
    rw [hst] at h
    dsimp only [] at h
    cases hact : cur.action with
    | Try =>
      rw [hact] at h
      dsimp only [] at h
      cases hit : f.items with
      | nil =>
        rw [hit] at h
        dsimp only [] at h
        refine Or.inr (Or.inl ⟨cur, rest, rfl, hact, rfl, ?_, ?_⟩)
        · cases h; rfl
        · cases h; rfl
      | cons it pend =>
        rw [hit] at h
        dsimp only [] at h
        obtain ⟨htrue, cur1, hl, ha, hge, hs⟩ := stepCont_shape _ _ _ _ _ _ h
        refine Or.inr (Or.inr ⟨cur, rest, f.bins, pend, it, cur1, rfl, htrue,
          hl, ha, hge, hs, rfl, Or.inl ⟨hact, rfl, rfl⟩⟩)
    | Backtrack =>
      rw [hact] at h
      dsimp only [] at h
      by_cases h0 : cur.next_bin_idx = 0
      · simp [h0] at h
      · simp only [if_neg h0] at h
        by_cases hlt : cur.next_bin_idx - 1 < f.bins.length
        · simp only [dif_pos hlt] at h
          cases hpop : (f.bins.get ⟨cur.next_bin_idx - 1, hlt⟩).pop with
          | none => rw [hpop] at h; simp at h
          | some p1 =>
            rw [hpop] at h
            dsimp only [] at h
            obtain ⟨b1, it⟩ := p1
            obtain ⟨htrue, cur1, hl, ha, hge, hs⟩ := stepCont_shape _ _ _ _ _ _ h
            refine Or.inr (Or.inr ⟨cur, rest, f.bins.set (cur.next_bin_idx - 1) b1, f.items,
              it, cur1, rfl, htrue, hl, ha, hge,
              hs, by simp, Or.inr ⟨hact, rfl, hlt, b1, hpop, by omega, rfl⟩⟩)
        · simp [dif_neg hlt] at h

theorem coe_append_singleton (l : List ℕ) (a : ℕ) :
    ((l ++ [a] : List ℕ) : Multiset ℕ) = (l : Multiset ℕ) + {a} := by
  rw [← Multiset.coe_singleton, Multiset.coe_add]

/-- A step never changes the number of bins. -/
theorem stepInner_bins_length (f f' : Fitter) (r : Bool) (h : f.stepInner = some (f', r)) :
    f'.bins.length = f.bins.length := by
  rcases stepInner_success f f' r h with ⟨_, hf, _⟩ | ⟨cur, rest, _, _, _, hf, _⟩ |
    ⟨cur, rest, bins0, pending0, item, cur1, hst, _, _, _, _, hs, hlen, hentry⟩
  · rw [hf]
  · rw [hf]
  · rcases scanLoop_shape _ _ _ _ _ _ _ hs with hf | ⟨j, hj, _, _, _, hf⟩
    · rw [hf]; exact hlen
    · rw [hf]; simpa using hlen

/-- C3 core: one successful step preserves the joint multiset of bin items
and pending items. -/
theorem stepInner_total (f f' : Fitter) (r : Bool) (h : f.stepInner = some (f', r)) :
    totalMultiset f' = totalMultiset f := by
  rcases stepInner_success f f' r h with ⟨_, hf, _⟩ | ⟨cur, rest, _, _, _, hf, _⟩ |
    ⟨cur, rest, bins0, pending0, item, cur1, hst, _, _, _, _, hs, hlen, hentry⟩
  · rw [hf]
  · rw [hf]; rfl
  · have hin : ((bins0.map Bin.items).flatten : Multiset ℕ) + (pending0 : Multiset ℕ) + {item}
        = totalMultiset f := by
      rcases hentry with ⟨_, hitems, hbins⟩ | ⟨_, hpend, h1, b1, hpop, _, hbins⟩
      · subst hbins
        rw [totalMultiset, hitems, ← Multiset.cons_coe, ← Multiset.singleton_add]
        abel
      · obtain ⟨hdecomp, _⟩ := Bin.pop_eq_some hpop
        have hex := flatten_set_exchange f.bins (cur.next_bin_idx - 1) h1 b1
        rw [hdecomp, coe_append_singleton] at hex
        have hkey : ((bins0.map Bin.items).flatten : Multiset ℕ) + {item}
            = ((f.bins.map Bin.items).flatten : Multiset ℕ) := by
          rw [hbins]
          have h2 : (((f.bins.set (cur.next_bin_idx - 1) b1).map Bin.items).flatten : Multiset ℕ)
                + {item} + (b1.items : Multiset ℕ)
              = ((f.bins.map Bin.items).flatten : Multiset ℕ) + (b1.items : Multiset ℕ) := by
            rw [← hex]; abel
          exact add_right_cancel h2
        rw [totalMultiset, ← hkey, hpend]
        abel
    rcases scanLoop_shape _ _ _ _ _ _ _ hs with hf | ⟨j, hj, _, hfits, _, hf⟩
    · rw [hf, ← hin, totalMultiset, ← Multiset.cons_coe, ← Multiset.singleton_add]
      abel
    · have hex := flatten_set_exchange bins0 j hj ((bins0.get ⟨j, hj⟩).push item)
      have hpitems : ((bins0.get ⟨j, hj⟩).push item).items
          = (bins0.get ⟨j, hj⟩).items ++ [item] := rfl
      rw [hpitems, coe_append_singleton] at hex
      have hkey : (((bins0.set j ((bins0.get ⟨j, hj⟩).push item)).map Bin.items).flatten
            : Multiset ℕ)
          = ((bins0.map Bin.items).flatten : Multiset ℕ) + {item} := by
        have h2 : (((bins0.set j ((bins0.get ⟨j, hj⟩).push item)).map Bin.items).flatten
              : Multiset ℕ) + ((bins0.get ⟨j, hj⟩).items : Multiset ℕ)
            = ((bins0.map Bin.items).flatten : Multiset ℕ) + {item}
              + ((bins0.get ⟨j, hj⟩).items : Multiset ℕ) := by
          rw [hex]; abel
        exact add_right_cancel h2
      rw [hf, ← hin, totalMultiset]
      dsimp only []
      rw [hkey]
      abel

/-- Replacing one bin by a bin with the same capacity-plus-content total
preserves the per-bin bookkeeping invariant. -/
theorem BinsInv_set (caps : List Nat) (bins : List Bin) (j : Nat) (hj : j < bins.length)
    (c : Bin) (hinv : BinsInv caps bins)
    (hc : c.capacity + c.items.sum
      = (bins.get ⟨j, hj⟩).capacity + (bins.get ⟨j, hj⟩).items.sum) :
    BinsInv caps (bins.set j c) := by
  obtain ⟨hlen, hcap⟩ := hinv
  refine ⟨by simpa using hlen, ?_⟩
  intro i hi hi'
  have hi0 : i < bins.length := by simpa using hi
  by_cases hij : i = j
  · subst hij
    have hcapi := hcap i hi0 hi'
    simp only [List.get_eq_getElem] at hcapi hc ⊢
    rw [List.getElem_set_self]
    omega
  · have hcapi := hcap i hi0 hi'
    simp only [List.get_eq_getElem] at hcapi ⊢
    rw [List.getElem_set_ne (fun hh => hij hh.symm)]
    exact hcapi

/-- C4 core: one successful step preserves the per-bin capacity bookkeeping. -/
theorem stepInner_binsInv (caps : List Nat) (f f' : Fitter) (r : Bool)
    (h : f.stepInner = some (f', r)) (hinv : BinsInv caps f.bins) :
    BinsInv caps f'.bins := by
  rcases stepInner_success f f' r h with ⟨_, hf, _⟩ | ⟨cur, rest, _, _, _, hf, _⟩ |
    ⟨cur, rest, bins0, pending0, item, cur1, hst, _, _, _, _, hs, hlen, hentry⟩
  · rw [hf]; exact hinv
  · rw [hf]; exact hinv
  · have hinv0 : BinsInv caps bins0 := by
      rcases hentry with ⟨_, _, hbins⟩ | ⟨_, _, h1, b1, hpop, _, hbins⟩
      · rw [hbins]; exact hinv
      · rw [hbins]
        refine BinsInv_set caps f.bins _ h1 b1 hinv ?_
        obtain ⟨hdecomp, hcap⟩ := Bin.pop_eq_some hpop
        rw [hdecomp, hcap]
        simp [List.sum_append]
        omega
    rcases scanLoop_shape _ _ _ _ _ _ _ hs with hf | ⟨j, hj, _, hfits, _, hf⟩
    · rw [hf]; exact hinv0
    · rw [hf]
      refine BinsInv_set caps bins0 j hj _ hinv0 ?_
      have hle : item ≤ (bins0.get ⟨j, hj⟩).capacity := of_decide_eq_true hfits
      simp only [List.get_eq_getElem] at hle ⊢
      simp [Bin.push, List.sum_append]
      omega

/-- A stack whose frames unwind is a well-formed stack (its head, if any, is
a `Backtrack` frame). -/
theorem StackOk_of_unwind (items : List Nat) (bins : List Bin) (stack : List State)
    (h : UnwindOk stack bins) : StackOk ⟨items, bins, stack⟩ := by
  cases stack with
  | nil => trivial
  | cons fr tl =>
    have hact : fr.action = Action.Backtrack := h.1
    simp only [StackOk]
    rw [hact]
    exact h

/-- Destructor for `StackOk` with a `Try` top frame. -/
theorem StackOk_try_elim {items : List Nat} {bins : List Bin} {cur : State}
    {rest : List State} (hstk : StackOk ⟨items, bins, cur :: rest⟩)
    (hact : cur.action = Action.Try) : cur = State.default ∧ UnwindOk rest bins := by
  simp only [StackOk] at hstk
  rw [hact] at hstk
  exact hstk

/-- Destructor for `StackOk` with a `Backtrack` top frame. -/
theorem StackOk_backtrack_elim {items : List Nat} {bins : List Bin} {cur : State}
    {rest : List State} (hstk : StackOk ⟨items, bins, cur :: rest⟩)
    (hact : cur.action = Action.Backtrack) : UnwindOk (cur :: rest) bins := by
  simp only [StackOk] at hstk
  rw [hact] at hstk
  exact hstk

/-- StackOk preservation: one successful step keeps the frame stack
well-formed. -/
theorem stepInner_stackOk (f f' : Fitter) (r : Bool)
    (h : f.stepInner = some (f', r)) (hstk : StackOk f) : StackOk f' := by
  rcases stepInner_success f f' r h with ⟨_, hf, _⟩ | ⟨cur, rest, hst, hact, _, hf, _⟩ |
    ⟨cur, rest, bins0, pending0, item, cur1, hst, _, _, _, _, hs, hlen, hentry⟩
  · rw [hf]; exact hstk
  · rw [hf]
    have hstk2 : StackOk ⟨f.items, f.bins, cur :: rest⟩ := by rw [← hst]; exact hstk
    exact StackOk_of_unwind _ _ _ (StackOk_try_elim hstk2 hact).2
  · have hstk2 : StackOk ⟨f.items, f.bins, cur :: rest⟩ := by rw [← hst]; exact hstk
    have hun0 : UnwindOk rest bins0 := by
      rcases hentry with ⟨hact, _, hbins⟩ | ⟨hact, _, h1, b1, hpop, _, hbins⟩
      · rw [hbins]
        exact (StackOk_try_elim hstk2 hact).2
      · obtain ⟨_, _, _, hb, b, it, hpop2, hun⟩ := StackOk_backtrack_elim hstk2 hact
        rw [hpop] at hpop2
        have hb1 : b1 = b := congrArg Prod.fst (Option.some_injective _ hpop2)
        rw [hbins, hb1]
        exact hun
    rcases scanLoop_shape _ _ _ _ _ _ _ hs with hf | ⟨j, hj, _, hfits, _, hf⟩
    · rw [hf]
      exact StackOk_of_unwind _ _ _ hun0
    · rw [hf]
      simp only [StackOk, State.default]
      refine ⟨trivial, ?_⟩
      simp only [UnwindOk]
      refine ⟨trivial, by show 1 ≤ j + 1; omega, ?_, ?_⟩
      · show j + 1 ≤ (bins0.set j ((bins0.get ⟨j, hj⟩).push item)).length
        simpa using Nat.succ_le_of_lt hj
      · have hjlt : j + 1 - 1 < (bins0.set j ((bins0.get ⟨j, hj⟩).push item)).length := by
          simpa using hj
        refine ⟨hjlt, bins0.get ⟨j, hj⟩, item, ?_, ?_⟩
        · have hset : (bins0.set j ((bins0.get ⟨j, hj⟩).push item)).get ⟨j + 1 - 1, hjlt⟩
              = (bins0.get ⟨j, hj⟩).push item := by
            simp only [List.get_eq_getElem, Nat.add_sub_cancel]
            exact List.getElem_set_self _
          rw [hset]
          exact Bin.pop_push _ _ hfits
        · have hback : (bins0.set j ((bins0.get ⟨j, hj⟩).push item)).set (j + 1 - 1)
              (bins0.get ⟨j, hj⟩) = bins0 := by
            simp only [Nat.add_sub_cancel, List.set_set]
            exact list_set_get_self _ _ _
          rw [hback]
          exact hun0

/-- A successful pop exposes the popped item as the last item of the bin. -/
theorem Bin.getLast_of_pop {b b' : Bin} {it : Nat} (h : b.pop = some (b', it)) :
    b.items.getLast? = some it := by
  rw [(Bin.pop_eq_some h).1]
  exact List.getLast?_concat _

/-- On a well-formed lower stack, `stepCont` never panics. -/
theorem stepCont_isSome (bins : List Bin) (rest : List State) (pending : List Nat)
    (cur : State) (item : Nat) (hun : UnwindOk rest bins) :
    (stepCont bins rest pending cur item).isSome := by
  unfold stepCont
  cases rest with
  | nil =>
    have := scanLoop_isSome (bins.length + 1) bins [] pending cur item (by omega) (by omega)
    cases hs : scanLoop (bins.length + 1) bins [] pending cur item with
    | none => rw [hs] at this; simp at this
    | some f1 => simp [hs]
  | cons prev tl =>
    obtain ⟨_, h1, h2, hb, b, it, hpop, _⟩ := hun
    dsimp only []
    rw [if_neg (by omega)]
    rw [dif_pos hb]
    rw [Bin.getLast_of_pop hpop]
    dsimp only []
    have := scanLoop_isSome (bins.length + 1) bins (prev :: tl) pending
      (if it ≤ item then
        { cur with next_bin_idx := max cur.next_bin_idx (prev.next_bin_idx - 1) }
       else cur) item (by omega) (by omega)
    cases hs : scanLoop (bins.length + 1) bins (prev :: tl) pending
        (if it ≤ item then
          { cur with next_bin_idx := max cur.next_bin_idx (prev.next_bin_idx - 1) }
         else cur) item with
    | none => rw [hs] at this; simp at this
    | some f1 => simp [hs]

/-- On a well-formed state the step function never panics. -/
theorem stepInner_isSome (f : Fitter) (hstk : StackOk f) : (f.stepInner).isSome := by
  unfold Fitter.stepInner
  cases hst : f.state_stack with
  | nil => simp
  | cons cur rest =>
    have hstk2 : StackOk ⟨f.items, f.bins, cur :: rest⟩ := by rw [← hst]; exact hstk
    dsimp only []
    cases hact : cur.action with
    | Try =>
      dsimp only []
      cases hit : f.items with
      | nil => simp
      | cons it pend =>
        have hun := (StackOk_try_elim hstk2 hact).2
        have := stepCont_isSome f.bins rest pend cur it hun
        dsimp only []
        exact this
    | Backtrack =>
      dsimp only []
      obtain ⟨_, h1, h2, hb, b, it, hpop, hun⟩ := StackOk_backtrack_elim hstk2 hact
      rw [if_neg (by omega), dif_pos hb, hpop]
      dsimp only []
      exact stepCont_isSome _ rest f.items cur it hun

/-- The invariant holds at construction. -/
theorem Inv_new (items caps : List Nat) : Inv items caps (Fitter.new items caps) := by
  refine ⟨?_, ⟨by simp [Fitter.new], ?_⟩, ?_⟩
  · have hflat : ((caps.map Bin.new).map Bin.items).flatten = ([] : List ℕ) := by
      simp [Bin.new]
    rw [totalMultiset]
    simp only [Fitter.new]
    rw [hflat]
    have hperm : List.Perm ((List.insertionSort (· ≤ ·) items).reverse) items :=
      (List.reverse_perm _).trans (List.perm_insertionSort _ _)
    rw [Multiset.coe_eq_coe.mpr hperm]
    simp
  · intro i hi hi'
    simp only [Fitter.new, List.get_eq_getElem] at hi ⊢
    simp [List.getElem_map, Bin.new]
  · simp only [StackOk, Fitter.new, State.default]
    exact ⟨trivial, trivial⟩

/-- All three invariant components are preserved along any chain of
successful steps from construction. -/
theorem reachable_inv (items caps : List Nat) (f : Fitter)
    (hreach : Reachable (Fitter.new items caps) f) : Inv items caps f := by
  induction hreach with
  | refl => exact Inv_new items caps
  | tail g gmid r hprev hstep ih =>
    obtain ⟨htot, hbinv, hstk⟩ := ih
    exact ⟨(stepInner_total _ _ _ hstep).trans htot,
      stepInner_binsInv _ _ _ _ hstep hbinv,
      stepInner_stackOk _ _ _ hstep hstk⟩

/-! ## C1: a feasible instance the engine reports as exhausted -/

/-- C1: the completeness claim fails on the code.  On items `[5]` and bin
capacities `[3, 5]` the engine, run to completion with no deadline, ends with
an empty frame stack and the item still pending (the `Exhausted` outcome):
the canonical-ordering prune rejects placing `5` into bin 1 while bin 0 is
empty, and bin 0 cannot hold it.  Yet a valid assignment exists (`5` in the
capacity-5 bin), so the spec's completeness property is violated by the code
on this input. -/
theorem completeness_failure_concrete :
    runEngine 2 (Fitter.new [5] [3, 5]) =
        some { items := [5], bins := [Bin.new 3, Bin.new 5], state_stack := [] } ∧
      Fitter.is_solved { items := [5], bins := [Bin.new 3, Bin.new 5], state_stack := [] } = false ∧
      validAssignment [5] [3, 5] [[], [5]] = true := by
  refine ⟨by decide, by decide, by decide⟩

/-! ## C5: the engine does not implement the tried-capacities-set skip rule -/

/-- C5 counterexample: the claim says the engine skips every bin whose
residual capacity equals the residual of *any* bin already tried at the
current frame.  Running the source engine and the spec-modelled tried-set
engine side by side on items `[6,6,5,3,2,2,2,2,2,2]` with three bins of
capacity 10, their states (projected through `FitterS.proj`, which keeps the
most recently tried capacity) first differ after 38 steps: there a frame that
has already tried residuals 2 and 4 places its item into another residual-2
bin, which the claimed semantics would skip. -/
theorem tried_set_semantics_refuted :
    ¬ ((stepsEngineS 38 (FitterS.new [6, 6, 5, 3, 2, 2, 2, 2, 2, 2] [10, 10, 10])).map
          FitterS.proj
        = stepsEngine 38 (Fitter.new [6, 6, 5, 3, 2, 2, 2, 2, 2, 2] [10, 10, 10])) := by
  decide


/-! ## C2, C3, C4: soundness and the reachable-state invariants -/

/-- C2: in every reachable engine state in which `is_solved` holds (pending
items empty), the multiset union of all bins' item lists equals exactly the
original input item multiset, and every bin's item sum is at most that bin's
original capacity. -/
theorem solved_state_sound (items caps : List Nat) (f : Fitter)
    (hreach : Reachable (Fitter.new items caps) f) (hsolved : f.is_solved = true) :
    (((f.bins.map Bin.items).flatten : List ℕ) : Multiset ℕ) = (items : Multiset ℕ) ∧
      f.bins.length = caps.length ∧
      ∀ i (h : i < f.bins.length) (h2 : i < caps.length),
        (f.bins.get ⟨i, h⟩).items.sum ≤ caps.get ⟨i, h2⟩ := by
  obtain ⟨htot, ⟨hlen, hcap⟩, _⟩ := reachable_inv items caps f hreach
  have hitems : f.items = [] := List.isEmpty_iff.mp hsolved
  refine ⟨?_, hlen, ?_⟩
  · rw [totalMultiset, hitems] at htot
    simpa using htot
  · intro i h h2
    have := hcap i h h2
    omega

theorem solved_state_sound_witness :
    ((((Fitter.mk [] [Bin.mk 0 [5]]
            [State.default, State.mk (some 5) 1 Action.Backtrack]).bins.map
          Bin.items).flatten : List ℕ) : Multiset ℕ) = (([5] : List ℕ) : Multiset ℕ) :=
  (solved_state_sound [5] [5] _
    (Reachable.tail _ _ _ true (Reachable.refl _) (by decide)) (by decide)).1

/-- C3: in every engine state reachable from construction by successful
steps, the sum of the items assigned to bins plus the sum of the pending
items equals the sum of the original input items. -/
theorem reachable_conservation (items caps : List Nat) (f : Fitter)
    (hreach : Reachable (Fitter.new items caps) f) :
    (f.bins.map (fun b => b.items.sum)).sum + f.items.sum = items.sum := by
  have htot := (reachable_inv items caps f hreach).1
  have hsum := congrArg Multiset.sum htot
  rw [totalMultiset] at hsum
  simp only [Multiset.sum_add, Multiset.sum_coe] at hsum
  rw [List.sum_flatten, List.map_map] at hsum
  exact hsum

theorem reachable_conservation_witness :
    ((Fitter.mk [] [Bin.mk 0 [5]]
          [State.default, State.mk (some 5) 1 Action.Backtrack]).bins.map
        (fun b => b.items.sum)).sum
      + (Fitter.mk [] [Bin.mk 0 [5]]
          [State.default, State.mk (some 5) 1 Action.Backtrack]).items.sum
      = List.sum [5] :=
  reachable_conservation [5] [5] _
    (Reachable.tail _ _ _ true (Reachable.refl _) (by decide))

/-- C4: in every engine state reachable from construction by successful
steps, every bin's stored residual capacity plus the sum of its assigned
items equals that bin's original capacity (so the residual, a `u32` in the
source, never goes below zero), and in particular each bin's item sum is at
most its original capacity. -/
theorem reachable_capacity (items caps : List Nat) (f : Fitter)
    (hreach : Reachable (Fitter.new items caps) f) :
    f.bins.length = caps.length ∧
      ∀ i (h : i < f.bins.length) (h2 : i < caps.length),
        (f.bins.get ⟨i, h⟩).capacity + (f.bins.get ⟨i, h⟩).items.sum = caps.get ⟨i, h2⟩ ∧
          (f.bins.get ⟨i, h⟩).items.sum ≤ caps.get ⟨i, h2⟩ := by
  obtain ⟨_, ⟨hlen, hcap⟩, _⟩ := reachable_inv items caps f hreach
  exact ⟨hlen, fun i h h2 => ⟨hcap i h h2, by have := hcap i h h2; omega⟩⟩

theorem reachable_capacity_witness :
    ((Fitter.mk [] [Bin.mk 0 [5]]
          [State.default, State.mk (some 5) 1 Action.Backtrack]).bins.get
        ⟨0, by decide⟩).capacity
        + ((Fitter.mk [] [Bin.mk 0 [5]]
            [State.default, State.mk (some 5) 1 Action.Backtrack]).bins.get
          ⟨0, by decide⟩).items.sum = ([5] : List ℕ).get ⟨0, by decide⟩ :=
  ((reachable_capacity [5] [5] _
      (Reachable.tail _ _ _ true (Reachable.refl _) (by decide))).2 0 (by decide)
    (by decide)).1

/-! ## C7: the return value of `step` -/

/-- C7 counterexample: the claim says `step()` returns `true` exactly when a
frame stack remains after the call (and `false` exactly when the stack is
empty).  On items `[5]` with an empty bin list, the very first step — from
the freshly constructed, hence reachable, engine state — returns `true`
while leaving the frame stack empty (this is the exhaustion transition). -/
theorem step_true_with_empty_stack :
    (Fitter.new [5] ([] : List Nat)).stepInner
      = some (Fitter.mk [5] [] [], true) := by decide

/-- C7 amended: `step()` returns `false` not when the stack is empty *after*
the call, but exactly when, at entry, the frame stack was already empty or
the top frame was a `Try` frame with no pending items (the solved case, in
which the top frame is also dropped); in every other non-panicking case it
returns `true`, regardless of whether a frame stack remains afterwards. -/
theorem step_return_value_characterization (f f' : Fitter) (r : Bool)
    (h : f.stepInner = some (f', r)) :
    r = false ↔ f.state_stack = [] ∨
      ∃ cur rest, f.state_stack = cur :: rest ∧ cur.action = Action.Try ∧ f.items = [] := by
  rcases stepInner_success f f' r h with ⟨hst, _, hr⟩ | ⟨cur, rest, hst, hact, hit, _, hr⟩ |
    ⟨cur, rest, bins0, pending0, item, cur1, hst, hr, _, _, _, _, _, hentry⟩
  · simp [hst, hr]
  · subst hr
    simp only [true_iff]
    exact Or.inr ⟨cur, rest, hst, hact, hit⟩
  · subst hr
    constructor
    · intro htf
      exact absurd htf (by simp)
    · intro hdisj
      exfalso
      rcases hdisj with hnil | ⟨cur2, rest2, hst2, hact2, hit2⟩
      · rw [hst] at hnil
        exact List.cons_ne_nil _ _ hnil
      · rw [hst] at hst2
        injection hst2 with hc hrest
        rcases hentry with ⟨hactT, hitems, -⟩ | ⟨hactB, -⟩
        · rw [hit2] at hitems
          exact List.noConfusion hitems
        · rw [hc] at hactB
          rw [hact2] at hactB
          exact Action.noConfusion hactB

theorem step_return_value_characterization_witness :
    false = false ↔ (Fitter.new ([] : List Nat) ([] : List Nat)).state_stack = [] ∨
      ∃ cur rest, (Fitter.new ([] : List Nat) ([] : List Nat)).state_stack = cur :: rest ∧
        cur.action = Action.Try ∧ (Fitter.new ([] : List Nat) ([] : List Nat)).items = [] :=
  step_return_value_characterization (Fitter.new [] []) (Fitter.mk [] [] []) false (by decide)

/-! ## C5 amended: the skip rule compares only the most recently tried capacity -/

/-- C5 amended: within one frame, the engine remembers only the residual
capacity of the most recently tried bin (`last_bin_capacity`), and a
placement is only ever made at a bin whose residual differs from *that*
value; a bin matching an earlier-tried (but not most recent) capacity can be
tried again, as `tried_set_semantics_refuted` shows on a concrete run.
Formally: whenever the scan loop places (its result carries the updated
frame `curF` above the untouched `rest`), the placed bin `j` lies at or
beyond the scan start, `curF` records that bin's pre-push residual as the new
most recently tried capacity, and that residual differs from the frame's
previous `last_bin_capacity`. -/
theorem scan_placement_skips_last (fuel : Nat) (bins : List Bin) (rest : List State)
    (pending : List Nat) (cur : State) (item : Nat) (f' : Fitter) (curF : State)
    (hscan : scanLoop fuel bins rest pending cur item = some f')
    (hplace : f'.state_stack = State.default :: curF :: rest) :
    ∃ j, ∃ hj : j < bins.length,
      curF.next_bin_idx = j + 1 ∧
        curF.last_bin_capacity = some ((bins.get ⟨j, hj⟩).capacity) ∧
        cur.last_bin_capacity ≠ some ((bins.get ⟨j, hj⟩).capacity) ∧
        cur.next_bin_idx ≤ j := by
  rcases scanLoop_shape fuel bins rest pending cur item f' hscan with
    hf | ⟨j, hj, hge, hfits, hlast, hf⟩
  · exfalso
    rw [hf] at hplace
    have := congrArg List.length hplace
    simp at this
    omega
  · rw [hf] at hplace
    have hcurF : curF = ⟨some ((bins.get ⟨j, hj⟩).capacity), j + 1, Action.Backtrack⟩ := by
      have hplace2 : State.default :: (⟨some ((bins.get ⟨j, hj⟩).capacity), j + 1,
          Action.Backtrack⟩ : State) :: rest = State.default :: curF :: rest := hplace
      injection hplace2 with h1 h2
      injection h2 with h3 h4
      exact h3.symm
    exact ⟨j, hj, by rw [hcurF], by rw [hcurF], hlast, hge⟩

theorem scan_placement_skips_last_witness :
    ∃ j, ∃ hj : j < ([Bin.new 5] : List Bin).length,
      (State.mk (some 5) 1 Action.Backtrack).next_bin_idx = j + 1 ∧
        (State.mk (some 5) 1 Action.Backtrack).last_bin_capacity
            = some ((([Bin.new 5] : List Bin).get ⟨j, hj⟩).capacity) ∧
        State.default.last_bin_capacity
            ≠ some ((([Bin.new 5] : List Bin).get ⟨j, hj⟩).capacity) ∧
        State.default.next_bin_idx ≤ j :=
  scan_placement_skips_last 2 [Bin.new 5] [] [] State.default 3
    (Fitter.mk [] [Bin.mk 2 [3]] [State.default, State.mk (some 5) 1 Action.Backtrack])
    (State.mk (some 5) 1 Action.Backtrack) (by decide) (by decide)


/-! ## Termination of the search (C10) -/

theorem digitValue_append (base : Nat) (xs ys : List Nat) (e : Nat) :
    digitValue base (xs ++ ys) e = digitValue base xs e + digitValue base ys (e - xs.length) := by
  induction xs generalizing e with
  | nil => simp [digitValue]
  | cons d ds ih =>
    show d * base ^ e + digitValue base (ds ++ ys) (e - 1)
        = d * base ^ e + digitValue base ds (e - 1) + digitValue base ys (e - (ds.length + 1))
    rw [ih]
    have hsub : e - 1 - ds.length = e - (ds.length + 1) := by omega
    rw [hsub]
    omega

/-- Unwinding pops one bin item per frame, so the frame count is bounded by
the total number of items currently in bins. -/
theorem UnwindOk_length (frames : List State) (bins : List Bin) (h : UnwindOk frames bins) :
    frames.length ≤ ((bins.map Bin.items).flatten).length := by
  induction frames generalizing bins with
  | nil => simp
  | cons fr tl ih =>
    obtain ⟨_, _, _, hb, b, it, hpop, hun⟩ := h
    have hrec := ih _ hun
    obtain ⟨hdecomp, _⟩ := Bin.pop_eq_some hpop
    have hex := flatten_set_exchange bins (fr.next_bin_idx - 1) hb b
    have hcard := congrArg Multiset.card hex
    simp only [Multiset.card_add, Multiset.coe_card] at hcard
    rw [hdecomp] at hcard
    simp only [List.length_append, List.length_cons, List.length_nil] at hcard ⊢
    omega

/-- The stack can never be deeper than one more than the item count. -/
theorem inv_stack_length (items caps : List Nat) (f : Fitter) (hinv : Inv items caps f) :
    f.state_stack.length ≤ items.length + 1 := by
  obtain ⟨htot, _, hstk⟩ := hinv
  have hcard := congrArg Multiset.card htot
  rw [totalMultiset] at hcard
  simp only [Multiset.card_add, Multiset.coe_card] at hcard
  cases hst : f.state_stack with
  | nil => simp
  | cons cur rest =>
    have hstk2 : StackOk ⟨f.items, f.bins, cur :: rest⟩ := by rw [← hst]; exact hstk
    cases hact : cur.action with
    | Try =>
      have hun := (StackOk_try_elim hstk2 hact).2
      have := UnwindOk_length rest f.bins hun
      simp only [List.length_cons]
      omega
    | Backtrack =>
      have hun := StackOk_backtrack_elim hstk2 hact
      have := UnwindOk_length (cur :: rest) f.bins hun
      simp only [List.length_cons] at this ⊢
      omega

/-- The top frame's scan index never exceeds the number of bins. -/
theorem stack_top_next_le (f : Fitter) (cur : State) (rest : List State)
    (hstk : StackOk f) (hst : f.state_stack = cur :: rest) :
    cur.next_bin_idx ≤ f.bins.length := by
  have hstk2 : StackOk ⟨f.items, f.bins, cur :: rest⟩ := by rw [← hst]; exact hstk
  cases hact : cur.action with
  | Try =>
    have hdef := (StackOk_try_elim hstk2 hact).1
    rw [hdef]
    exact Nat.zero_le _
  | Backtrack =>
    obtain ⟨_, _, h2, _⟩ := StackOk_backtrack_elim hstk2 hact
    exact h2

/-- Every step that returns `true` strictly decreases the termination
measure: either the top frame is dropped (its digit was positive), or it
advances past the chosen bin and a maximal fresh digit is appended one
position further right, which costs less than the advance saved. -/
theorem stepInner_measure_decrease (f f' : Fitter) (h : f.stepInner = some (f', true))
    (hstk : StackOk f) (B D : Nat) (hB : f.bins.length = B)
    (hD : f.state_stack.length ≤ D) :
    engineMeasure B D f' < engineMeasure B D f := by
  rcases stepInner_success f f' true h with ⟨_, _, hr⟩ | ⟨_, _, _, _, _, _, hr⟩ |
    ⟨cur, rest, bins0, pending0, item, cur1, hst, _, hl1, ha1, hge, hs, hlen, hentry⟩
  · exact absurd hr (by simp)
  · exact absurd hr (by simp)
  · have hnext : cur.next_bin_idx ≤ B := by
      rw [← hB]; exact stack_top_next_le f cur rest hstk hst
    have hRlen : rest.length + 1 ≤ D := by
      rw [hst] at hD; simpa using hD
    have hmf : engineMeasure B D f
        = digitValue (B + 2) (rest.reverse.map (frameDigit B)) D
          + (B + 1 - cur.next_bin_idx) * (B + 2) ^ (D - rest.length) := by
      rw [engineMeasure, hst]
      simp only [List.reverse_cons, List.map_append, List.map_cons, List.map_nil]
      rw [digitValue_append]
      simp [digitValue, frameDigit]
    rcases scanLoop_shape _ _ _ _ _ _ _ hs with hf | ⟨j, hj, hgej, hfits, hlast, hf⟩
    · have hmf2 : engineMeasure B D f'
          = digitValue (B + 2) (rest.reverse.map (frameDigit B)) D := by
        rw [hf, engineMeasure]
      rw [hmf, hmf2]
      have hpos : 0 < (B + 2) ^ (D - rest.length) := Nat.pos_pow_of_pos _ (by omega)
      have hmul : 0 < (B + 1 - cur.next_bin_idx) * (B + 2) ^ (D - rest.length) :=
        Nat.mul_pos (by omega) hpos
      omega
    · have hjB : j < B := by rw [← hB, ← hlen]; exact hj
      have hcj : cur.next_bin_idx ≤ j := le_trans (by omega) hgej
      have hmf2 : engineMeasure B D f'
          = digitValue (B + 2) (rest.reverse.map (frameDigit B)) D
            + ((B + 1 - (j + 1)) * (B + 2) ^ (D - rest.length)
              + (B + 1) * (B + 2) ^ (D - rest.length - 1)) := by
        rw [hf, engineMeasure]
        dsimp only []
        rw [show (State.default :: (⟨some ((bins0.get ⟨j, hj⟩).capacity), j + 1,
              Action.Backtrack⟩ : State) :: rest).reverse
            = rest.reverse ++ [⟨some ((bins0.get ⟨j, hj⟩).capacity), j + 1,
                Action.Backtrack⟩, State.default] from by simp]
        rw [List.map_append, digitValue_append]
        simp [digitValue, frameDigit, State.default, Nat.sub_sub]
      rw [hmf, hmf2]
      have he1 : 1 ≤ D - rest.length := by omega
      have hpow : (B + 2) ^ (D - rest.length)
          = (B + 2) * (B + 2) ^ (D - rest.length - 1) := by
        conv_lhs => rw [show D - rest.length = (D - rest.length - 1) + 1 from by omega]
        rw [pow_succ]
        ring
      have hwpos : 0 < (B + 2) ^ (D - rest.length - 1) := Nat.pos_pow_of_pos _ (by omega)
      have hkey : (B + 1 - (j + 1)) * (B + 2) ^ (D - rest.length)
            + (B + 1) * (B + 2) ^ (D - rest.length - 1)
          < (B + 1 - cur.next_bin_idx) * (B + 2) ^ (D - rest.length) := by
        rw [hpow]
        have hlt : (B + 1) * (B + 2) ^ (D - rest.length - 1)
            < (B + 2) * (B + 2) ^ (D - rest.length - 1) :=
          mul_lt_mul_of_pos_right (by omega) hwpos
        have hle : (B + 1 - (j + 1)) + 1 ≤ B + 1 - cur.next_bin_idx := by omega
        have hstep2 : ((B + 1 - (j + 1)) + 1) * ((B + 2) * (B + 2) ^ (D - rest.length - 1))
            ≤ (B + 1 - cur.next_bin_idx) * ((B + 2) * (B + 2) ^ (D - rest.length - 1)) :=
          mul_le_mul_right' hle _
        calc (B + 1 - (j + 1)) * ((B + 2) * (B + 2) ^ (D - rest.length - 1))
              + (B + 1) * (B + 2) ^ (D - rest.length - 1)
            < (B + 1 - (j + 1)) * ((B + 2) * (B + 2) ^ (D - rest.length - 1))
              + (B + 2) * (B + 2) ^ (D - rest.length - 1) := by omega
          _ = ((B + 1 - (j + 1)) + 1) * ((B + 2) * (B + 2) ^ (D - rest.length - 1)) := by ring
          _ ≤ (B + 1 - cur.next_bin_idx) * ((B + 2) * (B + 2) ^ (D - rest.length - 1)) := hstep2
      omega

/-- Strong-induction engine: from any invariant state the run finishes. -/
theorem runEngine_exists_of_inv (items caps : List Nat) :
    ∀ m (f : Fitter), Inv items caps f
      → engineMeasure caps.length (items.length + 2) f ≤ m
      → ∃ n F, runEngine n f = some F := by
  intro m
  induction m with
  | zero =>
    intro f hinv hm
    obtain ⟨p, hstep⟩ := Option.isSome_iff_exists.mp (stepInner_isSome f hinv.2.2)
    obtain ⟨f1, r⟩ := p
    cases r with
    | false => exact ⟨1, f1, by simp [runEngine, hstep]⟩
    | true =>
      exfalso
      have hB : f.bins.length = caps.length := hinv.2.1.1
      have hD : f.state_stack.length ≤ items.length + 2 := by
        have := inv_stack_length items caps f hinv
        omega
      have := stepInner_measure_decrease f f1 hstep hinv.2.2 caps.length
        (items.length + 2) hB hD
      omega
  | succ m ih =>
    intro f hinv hm
    obtain ⟨p, hstep⟩ := Option.isSome_iff_exists.mp (stepInner_isSome f hinv.2.2)
    obtain ⟨f1, r⟩ := p
    cases r with
    | false => exact ⟨1, f1, by simp [runEngine, hstep]⟩
    | true =>
      have hB : f.bins.length = caps.length := hinv.2.1.1
      have hD : f.state_stack.length ≤ items.length + 2 := by
        have := inv_stack_length items caps f hinv
        omega
      have hdec := stepInner_measure_decrease f f1 hstep hinv.2.2 caps.length
        (items.length + 2) hB hD
      have hinv1 : Inv items caps f1 :=
        ⟨(stepInner_total _ _ _ hstep).trans hinv.1,
          stepInner_binsInv _ _ _ _ hstep hinv.2.1,
          stepInner_stackOk _ _ _ hstep hinv.2.2⟩
      obtain ⟨n, F, hrun⟩ := ih f1 hinv1 (by omega)
      refine ⟨n + 1, F, ?_⟩
      rw [runEngine, hstep]
      exact hrun

/-- C10: for every finite list of item weights and finite list of bin
capacities, driving the engine with the always-true predicate terminates:
after finitely many steps `step()` returns `false` (the run ends `Solved` or
`Exhausted`), and no step along the way panics. -/
theorem engine_terminates (items caps : List Nat) :
    ∃ n F, runEngine n (Fitter.new items caps) = some F :=
  runEngine_exists_of_inv items caps
    (engineMeasure caps.length (items.length + 2) (Fitter.new items caps))
    (Fitter.new items caps) (Inv_new items caps) (le_refl _)


/-! ## C6: resumability of `solve_until` -/

/-- `runEngine` results agree across fuel values. -/
theorem runEngine_det : ∀ (n m : Nat) (f F G : Fitter),
    runEngine n f = some F → runEngine m f = some G → F = G := by
  intro n
  induction n with
  | zero => intro m f F G h; simp [runEngine] at h
  | succ n ih =>
    intro m f F G h1 h2
    cases m with
    | zero => simp [runEngine] at h2
    | succ m =>
      rw [runEngine] at h1 h2
      cases hstep : f.stepInner with
      | none => rw [hstep] at h1; simp at h1
      | some p =>
        obtain ⟨f1, r⟩ := p
        rw [hstep] at h1 h2
        cases r with
        | false =>
          dsimp only [] at h1 h2
          rw [← Option.some_inj.mp h1, ← Option.some_inj.mp h2]
        | true => exact ih m f1 F G h1 h2

/-- A completed engine run is a completed `solve_until(|| true)` call. -/
theorem solveUntilGo_of_run : ∀ (n k : Nat) (f F : Fitter), runEngine n f = some F →
    ∃ k2, solveUntilGo (fun _ => true) n k true f = some (F, true, k2) := by
  intro n
  induction n with
  | zero => intro k f F h; simp [runEngine] at h
  | succ n ih =>
    intro k f F h
    rw [runEngine] at h
    cases hstep : f.stepInner with
    | none => rw [hstep] at h; simp at h
    | some p =>
      obtain ⟨f1, r⟩ := p
      rw [hstep] at h
      cases r with
      | false =>
        dsimp only [] at h
        refine ⟨k, ?_⟩
        simp only [solveUntilGo]
        rw [hstep]
        dsimp only []
        rw [Option.some_inj.mp h]
      | true =>
        obtain ⟨k2, hgo⟩ := ih (k + 1) f1 F h
        refine ⟨k2, ?_⟩
        simp only [solveUntilGo]
        rw [hstep]
        exact hgo

/-- Conversely, a completed `solve_until(|| true)` call is a completed run. -/
theorem solveUntilGo_to_run : ∀ (fuel k k2 : Nat) (f F : Fitter),
    solveUntilGo (fun _ => true) fuel k true f = some (F, true, k2) →
      ∃ n, runEngine n f = some F := by
  intro fuel
  induction fuel with
  | zero => intro k k2 f F h; simp [solveUntilGo] at h
  | succ fuel ih =>
    intro k k2 f F h
    simp only [solveUntilGo] at h
    cases hstep : f.stepInner with
    | none => rw [hstep] at h; simp at h
    | some p =>
      obtain ⟨f1, r⟩ := p
      rw [hstep] at h
      cases r with
      | false =>
        dsimp only [] at h
        have hF : f1 = F := by
          simp only [Option.some_inj, Prod.mk.injEq] at h
          exact h.1
        refine ⟨1, ?_⟩
        rw [runEngine, hstep]
        dsimp only []
        rw [hF]
      | true =>
        obtain ⟨n, hn⟩ := ih (k + 1) k2 f1 F h
        refine ⟨n + 1, ?_⟩
        rw [runEngine, hstep]
        exact hn

/-- A completed engine run can be reproduced by the one-step-interrupt
resume protocol. -/
theorem resumeLoop_of_run : ∀ (n : Nat) (f F : Fitter), runEngine n f = some F →
    ∃ m, resumeLoop m f = some F := by
  intro n
  induction n with
  | zero => intro f F h; simp [runEngine] at h
  | succ n ih =>
    intro f F h
    rw [runEngine] at h
    cases hstep : f.stepInner with
    | none => rw [hstep] at h; simp at h
    | some p =>
      obtain ⟨f1, r⟩ := p
      rw [hstep] at h
      cases r with
      | false =>
        dsimp only [] at h
        refine ⟨1, ?_⟩
        rw [resumeLoop]
        have hsu : f.solve_until (fun k => k == 0) 2 = some (f1, true, 1) := by
          rw [Fitter.solve_until]
          show solveUntilGo (fun k => k == 0) 2 1 true f = some (f1, true, 1)
          simp only [solveUntilGo]
          rw [hstep]
        rw [hsu]
        dsimp only []
        rw [Option.some_inj.mp h]
      | true =>
        obtain ⟨m, hm⟩ := ih f1 F h
        refine ⟨m + 1, ?_⟩
        rw [resumeLoop]
        have hsu : f.solve_until (fun k => k == 0) 2 = some (f1, false, 2) := by
          rw [Fitter.solve_until]
          show solveUntilGo (fun k => k == 0) 2 1 true f = some (f1, false, 2)
          simp only [solveUntilGo]
          rw [hstep]
        rw [hsu]
        exact hm

/-- Conversely, whatever state the resume protocol ends in is the state of a
completed engine run. -/
theorem resumeLoop_to_run : ∀ (m : Nat) (f F : Fitter), resumeLoop m f = some F →
    ∃ n, runEngine n f = some F := by
  intro m
  induction m with
  | zero => intro f F h; simp [resumeLoop] at h
  | succ m ih =>
    intro f F h
    rw [resumeLoop] at h
    cases hstep : f.stepInner with
    | none =>
      have hsu : f.solve_until (fun k => k == 0) 2 = none := by
        rw [Fitter.solve_until]
        show solveUntilGo (fun k => k == 0) 2 1 true f = none
        simp only [solveUntilGo]
        rw [hstep]
      rw [hsu] at h
      simp at h
    | some p =>
      obtain ⟨f1, r⟩ := p
      cases r with
      | false =>
        have hsu : f.solve_until (fun k => k == 0) 2 = some (f1, true, 1) := by
          rw [Fitter.solve_until]
          show solveUntilGo (fun k => k == 0) 2 1 true f = some (f1, true, 1)
          simp only [solveUntilGo]
          rw [hstep]
        rw [hsu] at h
        dsimp only [] at h
        refine ⟨1, ?_⟩
        rw [runEngine, hstep]
        exact h
      | true =>
        have hsu : f.solve_until (fun k => k == 0) 2 = some (f1, false, 2) := by
          rw [Fitter.solve_until]
          show solveUntilGo (fun k => k == 0) 2 1 true f = some (f1, false, 2)
          simp only [solveUntilGo]
          rw [hstep]
        rw [hsu] at h
        dsimp only [] at h
        obtain ⟨n, hn⟩ := ih f1 F h
        refine ⟨n + 1, ?_⟩
        rw [runEngine, hstep]
        exact hn

/-- C6: for every input, running the engine to completion in one
`solve_until` call with the always-true predicate ends in the same final
state (same bins, same pending items, same outcome) as interrupting after
every single step (a predicate that is true once and then false) and
repeatedly resuming with further `solve_until` calls until a call reports
completion; moreover every completed run of either protocol, at any fuel,
ends in that same state. -/
theorem solve_until_resumable (items caps : List Nat) :
    ∃ fuel k m F,
      (Fitter.new items caps).solve_until (fun _ => true) fuel = some (F, true, k) ∧
        resumeLoop m (Fitter.new items caps) = some F ∧
        (∀ fuel2 k2 F2, (Fitter.new items caps).solve_until (fun _ => true) fuel2
            = some (F2, true, k2) → F2 = F) ∧
        (∀ m2 F2, resumeLoop m2 (Fitter.new items caps) = some F2 → F2 = F) := by
  obtain ⟨n, F, hrun⟩ := engine_terminates items caps
  obtain ⟨k2, hgo⟩ := solveUntilGo_of_run n 1 (Fitter.new items caps) F hrun
  obtain ⟨m, hres⟩ := resumeLoop_of_run n (Fitter.new items caps) F hrun
  refine ⟨n, k2, m, F, hgo, hres, ?_, ?_⟩
  · intro fuel2 kk F2 h2
    obtain ⟨n2, hrun2⟩ := solveUntilGo_to_run fuel2 1 kk (Fitter.new items caps) F2 h2
    exact runEngine_det n2 n (Fitter.new items caps) F2 F hrun2 hrun
  · intro m2 F2 h2
    obtain ⟨n2, hrun2⟩ := resumeLoop_to_run m2 (Fitter.new items caps) F2 h2
    exact runEngine_det n2 n (Fitter.new items caps) F2 F hrun2 hrun

/-! ## C9: the minimization driver's terminal reporting -/

/-- C9: when an iteration of the driver loop passes the aggregate-capacity
pre-check, is not cut short by the deadline, and its engine run completes
unsolved (proven infeasible at this bin count), the driver stops
decrementing immediately and reports `insert Unsolvable` on the recorded
solution: the previously recorded solution when one was recorded at a larger
bin count, and `Unsolvable` when none was ever recorded. -/
theorem driver_exhausted_reports_previous (weights : List Nat) (cap : Nat)
    (minimize : Bool) (tmo : Nat → Bool) (efuel fuel k max_bins : Nat)
    (sol : SolutionState) (F : Fitter)
    (hpre : weights.sum ≤ cap * max_bins)
    (htmo : tmo k = false)
    (hrun : runEngine efuel (Fitter.new weights (List.replicate max_bins cap)) = some F)
    (hnot : F.is_solved = false) :
    driverLoop weights cap minimize tmo efuel (fuel + 1) k max_bins sol
        = some (sol.insert SolutionState.Unsolvable) ∧
      (∀ bins, sol = SolutionState.Solved bins →
        sol.insert SolutionState.Unsolvable = SolutionState.Solved bins) ∧
      (sol = SolutionState.Unknown →
        sol.insert SolutionState.Unsolvable = SolutionState.Unsolvable) := by
  refine ⟨?_, ?_, ?_⟩
  · rw [driverLoop]
    rw [if_neg (by omega), if_neg (by simp [htmo]), hrun]
    dsimp only []
    rw [if_neg (by simp [hnot])]
  · intro bins hsol
    rw [hsol]
    rfl
  · intro hsol
    rw [hsol]
    rfl


/-- Witness for C9: three items of weights 3, 3, 2 at capacity 4 fit in three
bins but not in two, so the minimizing driver at `max_bins = 2` exhausts and
reports the three-bin solution recorded on the previous iteration. -/
theorem driver_exhausted_reports_previous_witness :
    List.sum [3, 3, 2] ≤ 4 * 2 ∧
      driverLoop [3, 3, 2] 4 true (fun _ => false) 40 (0 + 1) 0 2
          (SolutionState.Solved [⟨1, [3]⟩, ⟨1, [3]⟩, ⟨2, [2]⟩])
          = some ((SolutionState.Solved [⟨1, [3]⟩, ⟨1, [3]⟩, ⟨2, [2]⟩]).insert
              SolutionState.Unsolvable) ∧
      (SolutionState.Solved [⟨1, [3]⟩, ⟨1, [3]⟩, ⟨2, [2]⟩]).insert
          SolutionState.Unsolvable
          = SolutionState.Solved [⟨1, [3]⟩, ⟨1, [3]⟩, ⟨2, [2]⟩] :=
  ⟨by decide,
    (driver_exhausted_reports_previous [3, 3, 2] 4 true (fun _ => false) 40 0 0 2
        (SolutionState.Solved [⟨1, [3]⟩, ⟨1, [3]⟩, ⟨2, [2]⟩])
        ⟨[3, 3, 2], [⟨4, []⟩, ⟨4, []⟩], []⟩
        (by decide) rfl (by decide) rfl).1,
    (driver_exhausted_reports_previous [3, 3, 2] 4 true (fun _ => false) 40 0 0 2
        (SolutionState.Solved [⟨1, [3]⟩, ⟨1, [3]⟩, ⟨2, [2]⟩])
        ⟨[3, 3, 2], [⟨4, []⟩, ⟨4, []⟩], []⟩
        (by decide) rfl (by decide) rfl).2.1
      [⟨1, [3]⟩, ⟨1, [3]⟩, ⟨2, [2]⟩] rfl⟩

end PackBins
